import Mathlib

/-!
Verification of the token storage engine of the Code::Blocks code-completion
plugin (src/plugins/codecompletion/parser/token.h): the persistence codec
(SaveIntToFile / LoadIntFromFile / SaveStringToFile / LoadStringFromFile),
the TokenKind bit-flag enum, and the store operations declared in the header.

Modelling conventions:
  - A byte stream is a list of natural numbers (byte values) plus a read
    position; writers produce the list of bytes they append.
  - wxString values are modelled by their UTF-8 byte images (a list of byte
    values); the UTF-8 conversion round-trip is the identity on those images.
  - C `int` values are modelled as `Int` with explicit conversion through the
    32-bit two's-complement bit pattern where the code converts.
-/

/-- Input stream model: a byte sequence plus a read position.  Models
`wxInputStream`: reads consume bytes from the current position, and a read
past the end returns only the bytes that are available. -/
structure InStream where
  data : List Nat
  pos : Nat
deriving DecidableEq, Repr

/-- Model of `wxInputStream::Read(buf, n)` together with `LastRead()`: the
bytes actually obtained (at most `n`, fewer when the stream runs out) and the
stream advanced past them. -/
def streamRead (f : InStream) (n : Nat) : List Nat × InStream :=
  let bs := (f.data.drop f.pos).take n
  (bs, ⟨f.data, f.pos + bs.length⟩)

/-- Model of `wxInputStream::SeekI(n, wxFromCurrent)`: advance the read
position by `n` bytes. -/
def seekI (f : InStream) (n : Nat) : InStream :=
  ⟨f.data, f.pos + n⟩

/-- Storing a nonnegative bit pattern into a 32-bit signed C `int`: reduce to
32 bits and interpret in two's complement. -/
def toSigned32 (n : Nat) : Int :=
  if n % 2 ^ 32 < 2 ^ 31 then ((n % 2 ^ 32 : Nat) : Int)
  else ((n % 2 ^ 32 : Nat) : Int) - 2 ^ 32

/-- `SaveIntToFile` (token.h): `unsigned int const j = i;` then the four
bytes `j>>0&0xFF, j>>8&0xFF, j>>16&0xFF, j>>24&0xFF` are written in that
order (little-endian, one byte at a time). -/
def SaveIntToFile (i : Int) : List Nat :=
  let j : Nat := (i % (2 ^ 32 : Int)).toNat
  [(j >>> 0) &&& 0xFF, (j >>> 8) &&& 0xFF, (j >>> 16) &&& 0xFF, (j >>> 24) &&& 0xFF]

/-- `LoadIntFromFile` (token.h): read 4 bytes; if fewer arrive return `false`
leaving the output `int` unchanged; otherwise the output becomes
`c[0]<<0 | c[1]<<8 | c[2]<<16 | c[3]<<24` stored into a 32-bit `int`.
The result is (return value, output int, advanced stream). -/
def LoadIntFromFile (f : InStream) (i : Int) : Bool × Int × InStream :=
  let c := (streamRead f 4).1
  let f1 := (streamRead f 4).2
  if c.length ≠ 4 then (false, i, f1)
  else
    (true,
      toSigned32 ((c.getD 0 0 <<< 0) ||| (c.getD 1 0 <<< 8) |||
        (c.getD 2 0 <<< 16) ||| (c.getD 3 0 <<< 24)),
      f1)

/-- The byte image `str.mb_str(wxConvUTF8)` hands to `strlen`/`Write`: the
bytes of the UTF-8 image up to (excluding) the first NUL terminator. -/
def cstrBytes (s : List Nat) : List Nat := s.takeWhile (fun b => b ≠ 0)

/-- `SaveStringToFile` (token.h): `size = strlen(psz)` capped via
`if (size >= 32767) size = 32767;`, then the length prefix through
`SaveIntToFile` followed by the first `size` bytes (none when `size` is 0). -/
def SaveStringToFile (str : List Nat) : List Nat :=
  let psz := cstrBytes str
  let size0 := psz.length
  let size := if size0 ≥ 32767 then 32767 else size0
  SaveIntToFile (size : Int) ++ (if size ≠ 0 then psz.take size else [])

/-- The mask `size & 0xFFFFFF` that `LoadStringFromFile` applies to an
out-of-range length before skipping, computed on the 32-bit two's-complement
representation of the `int`. -/
def sizeMask (size : Int) : Nat := (size % (2 ^ 32 : Int)).toNat &&& 0xFFFFFF

/-- `LoadStringFromFile` (token.h): read the length prefix (propagating its
failure with the output string untouched); when `size > 0 && size <= 32767`
read `size` bytes into the 32768-byte buffer, NUL-terminate it and convert
(the conversion stops at the first NUL; uninitialized buffer bytes after a
short read are modelled as 0), with success iff `LastRead() == size`;
otherwise empty the output, skip `size & 0xFFFFFF` bytes and return `true`. -/
def LoadStringFromFile (f : InStream) (str : List Nat) : Bool × List Nat × InStream :=
  let r0 := LoadIntFromFile f 0
  let size := r0.2.1
  let f1 := r0.2.2
  if r0.1 = false then (false, str, f1)
  else if 0 < size ∧ size ≤ 32767 then
    let bs := (streamRead f1 size.toNat).1
    let f2 := (streamRead f1 size.toNat).2
    (bs.length == size.toNat, bs.takeWhile (fun b => b ≠ 0), f2)
  else
    (true, [], seekI f1 (sizeMask size))

/-- `TokenKind::tkNamespace` (token.h). -/
def tkNamespace : Nat := 0x0001

/-- `TokenKind::tkClass` (token.h). -/
def tkClass : Nat := 0x0002

/-- `TokenKind::tkEnum` (token.h). -/
def tkEnum : Nat := 0x0004

/-- `TokenKind::tkTypedef` (token.h). -/
def tkTypedef : Nat := 0x0008

/-- `TokenKind::tkConstructor` (token.h). -/
def tkConstructor : Nat := 0x0010

/-- `TokenKind::tkDestructor` (token.h). -/
def tkDestructor : Nat := 0x0020

/-- `TokenKind::tkFunction` (token.h). -/
def tkFunction : Nat := 0x0040

/-- `TokenKind::tkVariable` (token.h). -/
def tkVariable : Nat := 0x0080

/-- `TokenKind::tkEnumerator` (token.h). -/
def tkEnumerator : Nat := 0x0100

/-- `TokenKind::tkPreprocessor` (token.h). -/
def tkPreprocessor : Nat := 0x0200

/-- `TokenKind` (token.h): the macro kind, value 0x0400. -/
def tkMacro : Nat := 0x0400

/-- `TokenKind::tkAnyContainer` (token.h): `tkClass | tkNamespace | tkTypedef`. -/
def tkAnyContainer : Nat := tkClass ||| tkNamespace ||| tkTypedef

/-- `TokenKind::tkAnyFunction` (token.h): `tkFunction | tkConstructor | tkDestructor`. -/
def tkAnyFunction : Nat := tkFunction ||| tkConstructor ||| tkDestructor

/-- `TokenKind::tkUndefined` (token.h): 0xFFFF. -/
def tkUndefined : Nat := 0xFFFF

/-- Modelled from the spec: the body of `TokensTree::RecalcInheritanceChain`
is not among the sources (token.h only declares it).  Per spec §4.3 it
computes the transitive ancestor closure by walking each direct ancestor,
skipping any name already visited during the current closure walk and
descending into unvisited ones.  `store` maps each identity to its
direct-ancestor list (`store.getD idx []`), `visited` is the accumulated set
of identities seen by the walk, and `fuel` bounds the recursion depth; the
termination theorem shows that any fuel of at least `store.flatten.length + 1`
has already reached the fixpoint, so the walk halts on every store, cyclic or
self-referential ones included. -/
def RecalcInheritanceChain (store : List (List Nat)) : Nat → Nat → List Nat → List Nat
  | 0, _, visited => visited
  | fuel + 1, idx, visited =>
    (store.getD idx []).foldl
      (fun vis a => if a ∈ vis then vis else RecalcInheritanceChain store fuel a (a :: vis))
      visited

/-- Modelled from the spec: `TokensTree::GetTokenAt` is only declared in
token.h.  Per spec §6 the identity-to-record lookup fails by returning a null
reference sentinel if the identity is out of range or the slot is free.  The
arena is a list of slots, `none` marking a freed slot, and records are
abstracted to their payload. -/
def GetTokenAt (m_Tokens : List (Option Nat)) (idx : Int) : Option Nat :=
  if 0 ≤ idx ∧ idx.toNat < m_Tokens.length then m_Tokens.getD idx.toNat none else none

/-- `TokensTree::operator[]` (token.h): `return GetTokenAt(idx);`. -/
def opIndex (m_Tokens : List (Option Nat)) (idx : Int) : Option Nat :=
  GetTokenAt m_Tokens idx

/-- `TokensTree::at` (token.h): `return GetTokenAt(idx);`  (named
`tokensTreeAt` here because `at` is reserved). -/
def tokensTreeAt (m_Tokens : List (Option Nat)) (idx : Int) : Option Nat :=
  GetTokenAt m_Tokens idx

theorem and255_eq_mod (x : Nat) : x &&& 0xFF = x % 2 ^ 8 :=
  Nat.and_pow_two_sub_one_eq_mod x 8

theorem length_SaveIntToFile (i : Int) : (SaveIntToFile i).length = 4 := rfl

theorem SaveIntToFile_cons (i : Int) (rest : List Nat) :
    SaveIntToFile i ++ rest =
      (((i % (2 ^ 32 : Int)).toNat >>> 0) &&& 0xFF) ::
      (((i % (2 ^ 32 : Int)).toNat >>> 8) &&& 0xFF) ::
      (((i % (2 ^ 32 : Int)).toNat >>> 16) &&& 0xFF) ::
      (((i % (2 ^ 32 : Int)).toNat >>> 24) &&& 0xFF) :: rest := rfl

theorem assemble_bytes (b0 b1 b2 b3 : Nat) (h0 : b0 < 2 ^ 8) (h1 : b1 < 2 ^ 8)
    (h2 : b2 < 2 ^ 8) :
    (b0 <<< 0) ||| (b1 <<< 8) ||| (b2 <<< 16) ||| (b3 <<< 24) =
      b0 + 2 ^ 8 * b1 + 2 ^ 16 * b2 + 2 ^ 24 * b3 := by
  have e0 : b0 <<< 0 = b0 := by simp [Nat.shiftLeft_eq]
  have e1 : b1 <<< 8 = 2 ^ 8 * b1 := by rw [Nat.shiftLeft_eq, Nat.mul_comm]
  have e2 : b2 <<< 16 = 2 ^ 16 * b2 := by rw [Nat.shiftLeft_eq, Nat.mul_comm]
  have e3 : b3 <<< 24 = 2 ^ 24 * b3 := by rw [Nat.shiftLeft_eq, Nat.mul_comm]
  rw [e0, e1, e2, e3]
  rw [Nat.or_comm b0, ← Nat.mul_add_lt_is_or h0 b1]
  rw [Nat.or_comm _ (2 ^ 16 * b2),
    ← Nat.mul_add_lt_is_or (show 2 ^ 8 * b1 + b0 < 2 ^ 16 by omega) b2]
  rw [Nat.or_comm _ (2 ^ 24 * b3),
    ← Nat.mul_add_lt_is_or (show 2 ^ 16 * b2 + (2 ^ 8 * b1 + b0) < 2 ^ 24 by omega) b3]
  omega

theorem LoadInt_four (b0 b1 b2 b3 : Nat) (rest : List Nat) (i0 : Int) :
    LoadIntFromFile ⟨b0 :: b1 :: b2 :: b3 :: rest, 0⟩ i0 =
      (true, toSigned32 ((b0 <<< 0) ||| (b1 <<< 8) ||| (b2 <<< 16) ||| (b3 <<< 24)),
        ⟨b0 :: b1 :: b2 :: b3 :: rest, 4⟩) := rfl

theorem LoadIntFromFile_encoded (i i0 : Int) (rest : List Nat)
    (h1 : -(2 ^ 31) ≤ i) (h2 : i < 2 ^ 31) :
    LoadIntFromFile ⟨SaveIntToFile i ++ rest, 0⟩ i0 =
      (true, i, ⟨SaveIntToFile i ++ rest, 4⟩) := by
  have hjle : (((i % (2 ^ 32 : Int)).toNat : Int)) = i % 2 ^ 32 :=
    Int.toNat_of_nonneg (Int.emod_nonneg i (by norm_num))
  have hjlt : (i % (2 ^ 32 : Int)).toNat < 2 ^ 32 := by
    have := Int.emod_lt_of_pos i (show (0 : Int) < 2 ^ 32 by norm_num)
    omega
  rw [SaveIntToFile_cons, LoadInt_four]
  simp only [Prod.mk.injEq]
  refine ⟨trivial, ?_, trivial⟩
  have hassemble :
      ((((i % (2 ^ 32 : Int)).toNat >>> 0) &&& 0xFF) <<< 0) |||
      ((((i % (2 ^ 32 : Int)).toNat >>> 8) &&& 0xFF) <<< 8) |||
      ((((i % (2 ^ 32 : Int)).toNat >>> 16) &&& 0xFF) <<< 16) |||
      ((((i % (2 ^ 32 : Int)).toNat >>> 24) &&& 0xFF) <<< 24) =
        (i % (2 ^ 32 : Int)).toNat := by
    rw [and255_eq_mod, and255_eq_mod, and255_eq_mod, and255_eq_mod]
    rw [assemble_bytes _ _ _ _ (Nat.mod_lt _ (by norm_num)) (Nat.mod_lt _ (by norm_num))
      (Nat.mod_lt _ (by norm_num))]
    simp only [Nat.shiftRight_eq_div_pow, pow_zero, Nat.div_one]
    omega
  rw [hassemble]
  unfold toSigned32
  rw [Nat.mod_eq_of_lt hjlt]
  split_ifs with hcase
  · omega
  · omega

/-- C1: integer codec round trip.  For every 32-bit `int` value `i` (any
value in the two's-complement range), writing `i` with `SaveIntToFile` and
decoding the resulting 4-byte stream with `LoadIntFromFile` succeeds
(returns `true`) and stores exactly `i` in the output, for any prior output
value `i0`, consuming exactly the 4 bytes. -/
theorem SaveLoadInt_roundTrip (i i0 : Int) (h1 : -(2 ^ 31) ≤ i) (h2 : i < 2 ^ 31) :
    LoadIntFromFile ⟨SaveIntToFile i, 0⟩ i0 = (true, i, ⟨SaveIntToFile i, 4⟩) := by
  have h := LoadIntFromFile_encoded i i0 [] h1 h2
  simpa using h

/-- Witness for C1 at the concrete value -123456. -/
theorem SaveLoadInt_roundTrip_witness :
    LoadIntFromFile ⟨SaveIntToFile (-123456), 0⟩ 7 =
      (true, -123456, ⟨SaveIntToFile (-123456), 4⟩) :=
  SaveLoadInt_roundTrip (-123456) 7 (by decide) (by decide)

/-- C5: integer encoding format.  `SaveIntToFile` writes exactly 4 bytes in
little-endian order: the k-th byte written (k = 0..3) is bits 8k..8k+7 of the
32-bit two's-complement pattern of the value, independent of host byte order
or integer width. -/
theorem SaveIntToFile_little_endian (i : Int) :
    SaveIntToFile i =
      [(i % (2 ^ 32 : Int)).toNat / 2 ^ (8 * 0) % 2 ^ 8,
        (i % (2 ^ 32 : Int)).toNat / 2 ^ (8 * 1) % 2 ^ 8,
        (i % (2 ^ 32 : Int)).toNat / 2 ^ (8 * 2) % 2 ^ 8,
        (i % (2 ^ 32 : Int)).toNat / 2 ^ (8 * 3) % 2 ^ 8] := by
  unfold SaveIntToFile
  simp only [Nat.shiftRight_eq_div_pow, and255_eq_mod]

/-- C6: a malformed integer decode is locally absorbed.  When fewer than 4
bytes remain, `LoadIntFromFile` returns `false` and leaves the output integer
unchanged; when at least 4 bytes remain it returns `true`. -/
theorem LoadIntFromFile_malformed (f : InStream) (i : Int) :
    (f.data.length - f.pos < 4 →
      (LoadIntFromFile f i).1 = false ∧ (LoadIntFromFile f i).2.1 = i) ∧
    (4 ≤ f.data.length - f.pos → (LoadIntFromFile f i).1 = true) := by
  constructor
  · intro h
    simp [LoadIntFromFile, streamRead, h]
  · intro h
    have h' : ¬(f.data.length - f.pos < 4) := by omega
    simp [LoadIntFromFile, streamRead, h']

/-- Witness for C6 on a 2-byte stream (short read) . -/
theorem LoadIntFromFile_malformed_witness :
    (LoadIntFromFile ⟨[1, 2], 0⟩ 7).1 = false ∧ (LoadIntFromFile ⟨[1, 2], 0⟩ 7).2.1 = 7 :=
  (LoadIntFromFile_malformed ⟨[1, 2], 0⟩ 7).1 (by decide)

/-- C7: the eleven TokenKind constants are the eleven successive single bits
2^0 .. 2^10 (hence pairwise disjoint), and the derived masks are exactly the
stated unions: `tkAnyContainer = tkClass | tkNamespace | tkTypedef` and
`tkAnyFunction = tkFunction | tkConstructor | tkDestructor`. -/
theorem TokenKind_flags :
    [ tkNamespace, tkClass, tkEnum, tkTypedef, tkConstructor, tkDestructor,
      tkFunction, tkVariable, tkEnumerator, tkPreprocessor, tkMacro] =
      [2 ^ 0, 2 ^ 1, 2 ^ 2, 2 ^ 3, 2 ^ 4, 2 ^ 5, 2 ^ 6, 2 ^ 7, 2 ^ 8, 2 ^ 9, 2 ^ 10] ∧
    List.Pairwise (fun a b => a &&& b = 0)
      [ tkNamespace, tkClass, tkEnum, tkTypedef, tkConstructor, tkDestructor,
        tkFunction, tkVariable, tkEnumerator, tkPreprocessor, tkMacro] ∧
    tkAnyContainer = tkClass ||| tkNamespace ||| tkTypedef ∧
    tkAnyFunction = tkFunction ||| tkConstructor ||| tkDestructor := by
  decide

/-- C10: `TokensTree::operator[]` and `TokensTree::at` agree at every index
(both are defined as `GetTokenAt(idx)`), including the null sentinel on
out-of-range indices and freed slots. -/
theorem opIndex_eq_tokensTreeAt (m_Tokens : List (Option Nat)) (idx : Int) :
    opIndex m_Tokens idx = tokensTreeAt m_Tokens idx := rfl

theorem takeWhile_ne_zero_eq (s : List Nat) (hz : 0 ∉ s) :
    s.takeWhile (fun b => b ≠ 0) = s := by
  rw [List.takeWhile_eq_self_iff]
  intro x hx
  have hne : x ≠ 0 := fun h0 => hz (h0 ▸ hx)
  simp [hne]

theorem cstrBytes_eq (s : List Nat) (hz : 0 ∉ s) : cstrBytes s = s :=
  takeWhile_ne_zero_eq s hz

theorem SaveStringToFile_eq (s : List Nat) (hz : 0 ∉ s) (hlen : s.length ≤ 32767) :
    SaveStringToFile s = SaveIntToFile (s.length : Int) ++ s := by
  simp only [SaveStringToFile]
  rw [cstrBytes_eq s hz]
  have h1 : (if s.length ≥ 32767 then 32767 else s.length) = s.length := by
    split_ifs with h
    · omega
    · rfl
  rw [h1]
  by_cases hs : s.length = 0
  · have hnil : s = [] := List.length_eq_zero.mp hs
    subst hnil
    simp
  · simp [hs, List.take_length]

theorem SaveIntToFile_append_drop_four (i : Int) (rest : List Nat) :
    (SaveIntToFile i ++ rest).drop 4 = rest := rfl

/-- C2: string codec round trip.  For every string whose NUL-free UTF-8 byte
image `s` has length at most 32767, writing it with `SaveStringToFile` and
decoding the resulting stream with `LoadStringFromFile` returns `true` and
yields exactly `s` (for any prior output value `str0`), consuming the whole
encoding. -/
theorem SaveLoadString_roundTrip (s str0 : List Nat) (hz : 0 ∉ s)
    (hlen : s.length ≤ 32767) :
    LoadStringFromFile ⟨SaveStringToFile s, 0⟩ str0 =
      (true, s, ⟨SaveStringToFile s, (SaveStringToFile s).length⟩) := by
  rw [SaveStringToFile_eq s hz hlen]
  have hload := LoadIntFromFile_encoded (s.length : Int) 0 s
    (by omega) (by omega)
  by_cases hs : s = []
  · subst hs
    simp only [LoadStringFromFile, hload]
    norm_num [seekI, sizeMask]
    simp [length_SaveIntToFile]
  · have hpos : 0 < s.length := List.length_pos.mpr hs
    have hcond : 0 < ((s.length : Int)) ∧ ((s.length : Int)) ≤ 32767 := by
      omega
    simp only [LoadStringFromFile, hload]
    rw [if_neg (by simp), if_pos hcond]
    simp only [streamRead, Int.toNat_natCast, SaveIntToFile_append_drop_four,
      List.take_length, Prod.mk.injEq]
    refine ⟨by simp, takeWhile_ne_zero_eq s hz, ?_⟩
    simp [List.length_append, length_SaveIntToFile]

/-- Witness for C2 at the concrete byte string [65, 66, 67]. -/
theorem SaveLoadString_roundTrip_witness :
    LoadStringFromFile ⟨SaveStringToFile [65, 66, 67], 0⟩ [9] =
      (true, [65, 66, 67],
        ⟨SaveStringToFile [65, 66, 67], (SaveStringToFile [65, 66, 67]).length⟩) :=
  SaveLoadString_roundTrip [65, 66, 67] [9] (by decide) (by decide)

/-- C3: string encoding truncation.  On a NUL-free byte image `s`:
when `s` is longer than 32767 bytes `SaveStringToFile` writes the length
prefix 32767 followed by exactly the first 32767 bytes; when `s` is no longer
than 32767 it writes the true length followed by all of `s`; and when the
length is 0 it writes the length prefix alone with no payload bytes. -/
theorem SaveStringToFile_truncation (s : List Nat) (hz : 0 ∉ s) :
    (32767 < s.length →
      SaveStringToFile s = SaveIntToFile 32767 ++ s.take 32767) ∧
    (s.length ≤ 32767 →
      SaveStringToFile s = SaveIntToFile (s.length : Int) ++ s) ∧
    (s.length = 0 → SaveStringToFile s = SaveIntToFile 0) := by
  refine ⟨?_, SaveStringToFile_eq s hz, ?_⟩
  · intro h
    simp only [SaveStringToFile]
    rw [cstrBytes_eq s hz]
    have h1 : (if s.length ≥ 32767 then 32767 else s.length) = 32767 := by
      split_ifs with hc
      · rfl
      · omega
    rw [h1]
    norm_num
  · intro h
    have hnil : s = [] := List.length_eq_zero.mp h
    subst hnil
    rfl

/-- Witness for C3 at a concrete 32768-byte string (truncation branch). -/
theorem SaveStringToFile_truncation_witness :
    SaveStringToFile (List.replicate 32768 1) =
      SaveIntToFile 32767 ++ (List.replicate 32768 1).take 32767 :=
  (SaveStringToFile_truncation (List.replicate 32768 1)
    (by simp only [List.mem_replicate]; omega)).1
    (by rw [List.length_replicate]; norm_num)

/-- C4: decoding corruption guard.  Whenever the length prefix decoded by
`LoadStringFromFile` is greater than 32767, the decoder returns `true` with
the empty string as output and skips forward exactly `size & 0xFFFFFF` bytes
from the position after the prefix. -/
theorem LoadStringFromFile_overrange (f : InStream) (str : List Nat)
    (hok : (LoadIntFromFile f 0).1 = true)
    (hbig : 32767 < (LoadIntFromFile f 0).2.1) :
    LoadStringFromFile f str =
      (true, [], seekI (LoadIntFromFile f 0).2.2 (sizeMask (LoadIntFromFile f 0).2.1)) := by
  rcases hE : LoadIntFromFile f 0 with ⟨b, sz, f1⟩
  rw [hE] at hok hbig
  simp only at hok hbig
  subst hok
  have hcond : ¬(0 < sz ∧ sz ≤ 32767) := by omega
  simp only [LoadStringFromFile, hE]
  simp [hcond]

/-- Witness for C4: prefix 65536 on a 4-byte stream. -/
theorem LoadStringFromFile_overrange_witness :
    LoadStringFromFile ⟨[0, 0, 1, 0], 0⟩ [5] =
      (true, [],
        seekI (LoadIntFromFile ⟨[0, 0, 1, 0], 0⟩ 0).2.2
          (sizeMask (LoadIntFromFile ⟨[0, 0, 1, 0], 0⟩ 0).2.1)) :=
  LoadStringFromFile_overrange ⟨[0, 0, 1, 0], 0⟩ [5] (by decide) (by decide)

/-- C9: decode buffer safety.  `LoadStringFromFile` reads payload bytes into
its fixed 32768-byte buffer only when the decoded length prefix lies strictly
between 0 and 32767 inclusive — in which case the `size` bytes read plus the
appended NUL terminator occupy at most 32768 slots — and every other prefix
(0, negative, or above 32767) takes the skip branch: output emptied, stream
advanced by `size & 0xFFFFFF`, return value `true`. -/
theorem LoadStringFromFile_buffer_guard (f : InStream) (str : List Nat)
    (hok : (LoadIntFromFile f 0).1 = true) :
    (¬(0 < (LoadIntFromFile f 0).2.1 ∧ (LoadIntFromFile f 0).2.1 ≤ 32767) →
      LoadStringFromFile f str =
        (true, [],
          seekI (LoadIntFromFile f 0).2.2 (sizeMask (LoadIntFromFile f 0).2.1))) ∧
    (0 < (LoadIntFromFile f 0).2.1 ∧ (LoadIntFromFile f 0).2.1 ≤ 32767 →
      (LoadIntFromFile f 0).2.1.toNat + 1 ≤ 32768) := by
  rcases hE : LoadIntFromFile f 0 with ⟨b, sz, f1⟩
  rw [hE] at hok
  simp only at hok
  subst hok
  constructor
  · intro hcond
    simp only at hcond
    simp only [LoadStringFromFile, hE]
    simp [hcond]
  · intro hcond
    simp only at hcond ⊢
    omega

/-- Witness for C9: negative prefix -1 (bytes FF FF FF FF) takes the skip
branch. -/
theorem LoadStringFromFile_buffer_guard_witness :
    LoadStringFromFile ⟨[255, 255, 255, 255], 0⟩ [8] =
      (true, [],
        seekI (LoadIntFromFile ⟨[255, 255, 255, 255], 0⟩ 0).2.2
          (sizeMask (LoadIntFromFile ⟨[255, 255, 255, 255], 0⟩ 0).2.1)) :=
  (LoadStringFromFile_buffer_guard ⟨[255, 255, 255, 255], 0⟩ [8]
    (by decide)).1 (by decide)

theorem foldl_pres {α β : Type} (p : α → Prop) (f : α → β → α) (l : List β) (acc : α)
    (hf : ∀ a b, p a → p (f a b)) (ha : p acc) : p (l.foldl f acc) := by
  induction l generalizing acc with
  | nil => exact ha
  | cons hd tl ih => exact ih _ (hf _ _ ha)

theorem foldl_congr_pres {α β : Type} (p : α → Prop) (f g : α → β → α) (l : List β)
    (acc : α) (hf : ∀ a b, p a → b ∈ l → p (f a b))
    (hfg : ∀ a b, p a → b ∈ l → f a b = g a b) (ha : p acc) :
    l.foldl f acc = l.foldl g acc := by
  induction l generalizing acc with
  | nil => rfl
  | cons hd tl ih =>
    have h1 : f acc hd = g acc hd := hfg acc hd ha (List.mem_cons_self hd tl)
    have h2 : p (f acc hd) := hf acc hd ha (List.mem_cons_self hd tl)
    simp only [List.foldl_cons]
    rw [← h1]
    exact ih (f acc hd)
      (fun a b pa hb => hf a b pa (List.mem_cons_of_mem _ hb))
      (fun a b pa hb => hfg a b pa (List.mem_cons_of_mem _ hb)) h2

theorem mem_getD_flatten {store : List (List Nat)} {idx a : Nat}
    (h : a ∈ store.getD idx []) : a ∈ store.flatten := by
  by_cases hlt : idx < store.length
  · rw [List.getD_eq_getElem _ _ hlt] at h
    exact List.mem_flatten.mpr ⟨store[idx], List.getElem_mem hlt, h⟩
  · rw [List.getD_eq_default _ _ (by omega)] at h
    simp at h

/-- Pending work of a closure walk: the ancestor names in the store not yet
visited. -/
def chainMeasure (store : List (List Nat)) (visited : List Nat) : Nat :=
  (store.flatten.filter (fun x => x ∉ visited)).length

theorem filter_length_mono {α : Type} (p q : α → Bool) (l : List α)
    (h : ∀ x ∈ l, p x = true → q x = true) :
    (l.filter p).length ≤ (l.filter q).length := by
  induction l with
  | nil => simp
  | cons hd tl ih =>
    have ih' := ih fun x hx hpx => h x (List.mem_cons_of_mem _ hx) hpx
    simp only [List.filter_cons]
    by_cases hp : p hd = true
    · rw [if_pos hp, if_pos (h hd (List.mem_cons_self hd tl) hp)]
      simpa using ih'
    · rw [if_neg hp]
      by_cases hq : q hd = true
      · rw [if_pos hq]
        exact le_trans ih' (by simp)
      · rw [if_neg hq]
        exact ih'

theorem filter_length_lt {α : Type} (p q : α → Bool) (l : List α) (a : α)
    (h : ∀ x ∈ l, p x = true → q x = true)
    (ha : a ∈ l) (hqa : q a = true) (hpa : p a = false) :
    (l.filter p).length < (l.filter q).length := by
  induction l with
  | nil => cases ha
  | cons hd tl ih =>
    simp only [List.filter_cons]
    rcases List.mem_cons.mp ha with rfl | hatl
    · rw [if_neg (by simp [hpa]), if_pos hqa]
      have hmono := filter_length_mono p q tl
        fun x hx hpx => h x (List.mem_cons_of_mem _ hx) hpx
      simp only [List.length_cons]
      omega
    · have ih' := ih (fun x hx hpx => h x (List.mem_cons_of_mem _ hx) hpx) hatl
      by_cases hp : p hd = true
      · rw [if_pos hp, if_pos (h hd (List.mem_cons_self hd tl) hp)]
        simpa using ih'
      · rw [if_neg hp]
        by_cases hq : q hd = true
        · rw [if_pos hq]
          exact lt_of_lt_of_le ih' (by simp)
        · rw [if_neg hq]
          exact ih'

theorem RecalcInheritanceChain_succ (store : List (List Nat)) (fuel idx : Nat)
    (visited : List Nat) :
    RecalcInheritanceChain store (fuel + 1) idx visited =
      (store.getD idx []).foldl
        (fun vis a => if a ∈ vis then vis else RecalcInheritanceChain store fuel a (a :: vis))
        visited := rfl

theorem mem_RecalcInheritanceChain (store : List (List Nat)) (fuel : Nat) :
    ∀ idx visited x, x ∈ visited → x ∈ RecalcInheritanceChain store fuel idx visited := by
  induction fuel with
  | zero => exact fun idx visited x hx => hx
  | succ fuel ih =>
    intro idx visited x hx
    rw [RecalcInheritanceChain_succ]
    refine foldl_pres (fun vis => x ∈ vis) _ _ _ ?_ hx
    intro vis b hvis
    by_cases hb : b ∈ vis
    · simpa [hb] using hvis
    · simp only [if_neg hb]
      exact ih b (b :: vis) x (List.mem_cons_of_mem _ hvis)

theorem RecalcInheritanceChain_stable (store : List (List Nat)) :
    ∀ fuel idx visited, chainMeasure store visited < fuel →
      RecalcInheritanceChain store fuel idx visited =
        RecalcInheritanceChain store (fuel + 1) idx visited := by
  intro fuel
  induction fuel using Nat.strong_induction_on with
  | _ fuel ih =>
    intro idx visited hμ
    cases fuel with
    | zero => exact absurd hμ (Nat.not_lt_zero _)
    | succ n =>
      rw [RecalcInheritanceChain_succ, RecalcInheritanceChain_succ]
      refine foldl_congr_pres (fun vis => ∀ x ∈ visited, x ∈ vis) _ _ _ _ ?_ ?_
        (fun x hx => hx)
      · intro vis b hp _
        intro x hx
        by_cases hbv : b ∈ vis
        · simpa [hbv] using hp x hx
        · simp only [if_neg hbv]
          exact mem_RecalcInheritanceChain store n b (b :: vis) x
            (List.mem_cons_of_mem _ (hp x hx))
      · intro vis b hp hb
        by_cases hbv : b ∈ vis
        · simp [hbv]
        · simp only [if_neg hbv]
          have hbfl : b ∈ store.flatten := mem_getD_flatten hb
          have hsub : chainMeasure store vis ≤ chainMeasure store visited := by
            apply filter_length_mono
            intro x _ hpx
            simp only [decide_eq_true_eq] at hpx ⊢
            exact fun hxv => hpx (hp x hxv)
          have hlt : chainMeasure store (b :: vis) < chainMeasure store vis := by
            apply filter_length_lt _ _ _ b ?_ hbfl (by simpa using hbv) (by simp)
            intro x _ hpx
            simp only [decide_eq_true_eq] at hpx ⊢
            exact fun hxv => hpx (List.mem_cons_of_mem _ hxv)
          exact ih n (Nat.lt_succ_self n) b (b :: vis) (by omega)

/-- C8: inheritance closure termination under cycles.  For every store
(including ones whose direct-ancestor relation has cycles or
self-references), the closure walk of `RecalcInheritanceChain` halts: any
recursion-depth budget of at least `store.flatten.length + 1` yields the
same, already-stable result, so the walk never needs unbounded descent —
names already visited during the current walk are skipped rather than
re-descended. -/
theorem RecalcInheritanceChain_terminates (store : List (List Nat)) (idx : Nat)
    (visited : List Nat) (fuel : Nat) (h : store.flatten.length + 1 ≤ fuel) :
    RecalcInheritanceChain store fuel idx visited =
      RecalcInheritanceChain store (store.flatten.length + 1) idx visited := by
  have hbound : chainMeasure store visited ≤ store.flatten.length :=
    List.length_filter_le _ _
  obtain ⟨k, rfl⟩ : ∃ k, fuel = store.flatten.length + 1 + k :=
    ⟨fuel - (store.flatten.length + 1), by omega⟩
  clear h
  induction k with
  | zero => rfl
  | succ k ih =>
    have hst := RecalcInheritanceChain_stable store (store.flatten.length + 1 + k)
      idx visited (by omega)
    exact hst.symm.trans ih

/-- Witness for C8 on the cyclic store where identity 0 derives from 1 and 1
derives from 0: a generous budget agrees with the stable bound. -/
theorem RecalcInheritanceChain_terminates_witness :
    RecalcInheritanceChain [[1], [0]] 10 0 [] =
      RecalcInheritanceChain [[1], [0]] ([[1], [0]] : List (List Nat)).flatten.length.succ 0 [] :=
  RecalcInheritanceChain_terminates [[1], [0]] 0 [] 10 (by decide)
